import Mathlib

/-!
A shallow embedding of `src/main.rs` (fdbchat): a chat room over the
FoundationDB ordered key-value store.  Keys and values are byte strings,
modelled as `List Nat` (each entry an octet).  The FoundationDB tuple layer
packs string elements as `0x02 :: escaped-bytes ++ [0x00]`, and keys compare
as unsigned byte strings, lexicographically with a proper prefix sorting
first.  Transactions are atomic, so each transactional operation is a pure
function of the store state.
-/

namespace Fdbchat


/-- A key or value: a byte string, one `Nat` per octet. -/
abbrev Bytes := List Nat

/-- ASCII bytes of a Lean string literal (all literals used here are ASCII). -/
def ascii (s : String) : Bytes := s.data.map Char.toNat

/-- Strict lexicographic order on byte strings, as FoundationDB compares
keys: compare octet by octet, a proper prefix sorts first. -/
def bytesLt : Bytes → Bytes → Bool
  | _, [] => false
  | [], _ :: _ => true
  | a :: as, b :: bs => if a < b then true else if b < a then false else bytesLt as bs

/-- Non-strict lexicographic order on byte strings. -/
def bytesLe : Bytes → Bytes → Bool
  | [], _ => true
  | _ :: _, [] => false
  | a :: as, b :: bs => if a < b then true else if b < a then false else bytesLe as bs

/-! ## Timestamps

`chrono::DateTime<chrono::Utc>` is modelled by its UTC calendar fields at
millisecond resolution (the program only ever renders milliseconds:
`to_rfc3339_opts(SecondsFormat::Millis, true)` truncates below that).
Chronological order on instants coincides with lexicographic order on the
field tuple for in-range fields. -/

structure DT where
  year : Nat
  month : Nat
  day : Nat
  hour : Nat
  minute : Nat
  second : Nat
  milli : Nat
deriving DecidableEq, Repr

/-- Field ranges a `chrono` UTC datetime always satisfies (day-of-month
validity beyond `≤ 31` is irrelevant to ordering and formatting). -/
def ValidDT (t : DT) : Prop :=
  1 ≤ t.month ∧ t.month ≤ 12 ∧ 1 ≤ t.day ∧ t.day ≤ 31 ∧
    t.hour < 24 ∧ t.minute < 60 ∧ t.second < 60 ∧ t.milli < 1000

instance : ∀ t, Decidable (ValidDT t) := fun t => by unfold ValidDT; infer_instance

/-- Chronological (instant) order: lexicographic on the calendar fields. -/
def dtLt (a b : DT) : Prop :=
  a.year < b.year ∨ (a.year = b.year ∧
    (a.month < b.month ∨ (a.month = b.month ∧
      (a.day < b.day ∨ (a.day = b.day ∧
        (a.hour < b.hour ∨ (a.hour = b.hour ∧
          (a.minute < b.minute ∨ (a.minute = b.minute ∧
            (a.second < b.second ∨ (a.second = b.second ∧
              a.milli < b.milli)))))))))))

instance : ∀ a b, Decidable (dtLt a b) := fun a b => by unfold dtLt; infer_instance

/-! ## RFC 3339 rendering (`Session::date_string`, src lines 100-102)

`dt.to_rfc3339_opts(chrono::SecondsFormat::Millis, true)` renders
`YYYY-MM-DDTHH:MM:SS.mmmZ`.  chrono writes the year as four zero-padded
digits when `0 ≤ year ≤ 9999`, and otherwise falls back to `{:+05}`
formatting: an explicit sign followed by the decimal digits. -/

/-- ASCII code of a decimal digit. -/
def digit (n : Nat) : Nat := 48 + n

/-- Two zero-padded decimal digits (for values below 100). -/
def pad2 (n : Nat) : Bytes := [digit (n / 10 % 10), digit (n % 10)]

/-- Three zero-padded decimal digits (for values below 1000). -/
def pad3 (n : Nat) : Bytes := [digit (n / 100 % 10), digit (n / 10 % 10), digit (n % 10)]

/-- Four zero-padded decimal digits (for values below 10000). -/
def pad4 (n : Nat) : Bytes := pad2 (n / 100) ++ pad2 (n % 100)

/-- Decimal digits of a number, most significant first, no padding
(structural on a fuel argument that is always sufficient). -/
def natDigitsAux : Nat → Nat → Bytes
  | 0, _ => []
  | fuel + 1, n =>
    if n < 10 then [digit n] else natDigitsAux fuel (n / 10) ++ [digit (n % 10)]

def natDigits (n : Nat) : Bytes := natDigitsAux (n + 1) n

/-- chrono's year rendering inside `to_rfc3339_opts`: four zero-padded
digits in `0..=9999`, otherwise sign-and-digits (`{:+05}` — at least five
digits follow the `+` for years above 9999, so no extra padding occurs). -/
def yearBytes (y : Nat) : Bytes :=
  if y ≤ 9999 then pad4 y else 43 :: natDigits y

/-- `Session::date_string`: the RFC 3339 text `YYYY-MM-DDTHH:MM:SS.mmmZ`
(45 `-`, 84 `T`, 58 `:`, 46 `.`, 90 `Z`). -/
def dateString (t : DT) : Bytes :=
  yearBytes t.year ++ [45] ++ pad2 t.month ++ [45] ++ pad2 t.day ++ [84] ++
    pad2 t.hour ++ [58] ++ pad2 t.minute ++ [58] ++ pad2 t.second ++ [46] ++
    pad3 t.milli ++ [90]

/-! ## FoundationDB tuple packing (`pack`, `Subspace`)

A tuple of strings packs as the concatenation of its elements, each encoded
as `0x02 :: bytes ++ [0x00]` with embedded `0x00` escaped to `0x00 0xFF`. -/

/-- Escape NUL bytes inside a packed string element. -/
def escNul : Bytes → Bytes
  | [] => []
  | b :: rest => if b = 0 then 0 :: 255 :: escNul rest else b :: escNul rest

/-- Pack one string element of a FoundationDB tuple. -/
def packString (s : Bytes) : Bytes := 2 :: escNul s ++ [0]

/-- Pack a tuple of string elements. -/
def packTuple (elems : List Bytes) : Bytes := (elems.map packString).flatten

/-- `Session::user_key`: `("rooms", room, "users", username)`, packed. -/
def userKey (room user : Bytes) : Bytes :=
  packTuple [ascii "rooms", room, ascii "users", user]

/-- `Session::message_key`: `("rooms", room, "messages", date_string dt)`, packed. -/
def messageKey (room : Bytes) (t : DT) : Bytes :=
  packTuple [ascii "rooms", room, ascii "messages", dateString t]

/-- `Session::message_recent_key`: `("rooms", room, "most_recent_message")`, packed. -/
def recentKey (room : Bytes) : Bytes :=
  packTuple [ascii "rooms", room, ascii "most_recent_message"]

/-- Packed prefix of the room's messages subspace,
`Subspace::from(&("rooms", room, "messages"))`. -/
def msgSubspace (room : Bytes) : Bytes :=
  packTuple [ascii "rooms", room, ascii "messages"]

/-- `Subspace::range()` produces `(prefix ++ [0x00], prefix ++ [0xFF])`. -/
def msgRangeBegin (room : Bytes) : Bytes := msgSubspace room ++ [0]

def msgRangeEnd (room : Bytes) : Bytes := msgSubspace room ++ [255]

/-! ## The store

One FoundationDB transaction is atomic, so every transactional operation of
the program is a pure function of the store state.  The store is an
association list kept in strictly ascending key order by `setS`. -/

abbrev Store := List (Bytes × Bytes)

/-- `tx.get`: the value at a key. -/
def getS : Store → Bytes → Option Bytes
  | [], _ => none
  | (k, v) :: rest, key => if key = k then some v else getS rest key

/-- `tx.get(key, snapshot)`: within a single transaction the value returned
does not depend on the snapshot flag (the flag only controls whether the
read adds a conflict range); the flag is recorded by the caller. -/
def getSnap (s : Store) (k : Bytes) (_snapshot : Bool) : Option Bytes := getS s k

/-- `tx.set`: overwrite or insert, keeping keys in ascending byte order. -/
def setS : Store → Bytes → Bytes → Store
  | [], k, v => [(k, v)]
  | (k', v') :: rest, k, v =>
    if bytesLt k k' then (k, v) :: (k', v') :: rest
    else if k = k' then (k, v) :: rest
    else (k', v') :: setS rest k v

/-- `tx.clear`: delete one key. -/
def clearKey : Store → Bytes → Store
  | [], _ => []
  | (k', v') :: rest, k =>
    if k' = k then clearKey rest k else (k', v') :: clearKey rest k

/-- `tx.clear_subspace_range`: delete every key in `[b, e)`. -/
def clearRangeS (s : Store) (b e : Bytes) : Store :=
  s.filter (fun kv => !(bytesLe b kv.1 && bytesLt kv.1 e))

/-- A `KeySelector` in begin position: `first_greater_or_equal` keeps keys
`≥ k`, `first_greater_than` keeps keys `> k`. -/
inductive BeginSel
  | ge (k : Bytes)
  | gt (k : Bytes)

def beginMatch : BeginSel → Bytes → Bool
  | .ge b, k => bytesLe b k
  | .gt b, k => bytesLt b k

/-- `tx.get_range` with an end selector `first_greater_or_equal e` and an
optional `RangeOption::limit`: the ordered in-range entries, truncated. -/
def rangeRead (s : Store) (b : BeginSel) (e : Bytes) (limit : Option Nat) : Store :=
  let inR := s.filter (fun kv => beginMatch b kv.1 && bytesLt kv.1 e)
  match limit with
  | none => inR
  | some l => inR.take l

/-! ## Tuple unpacking and RFC 3339 parsing -/

/-- Read one packed string element body up to its unescaped NUL terminator
(`0x00 0xFF` is an escaped NUL inside the element). -/
def takeStr : Bytes → Option (Bytes × Bytes)
  | [] => none
  | b :: rest =>
    if b = 0 then
      match rest with
      | [] => some ([], [])
      | r0 :: rest2 =>
        if r0 = 255 then (takeStr rest2).map (fun sr => (0 :: sr.1, sr.2))
        else some ([], rest)
    else (takeStr rest).map (fun sr => (b :: sr.1, sr.2))

/-- Read one packed string element: type code `0x02`, then the body. -/
def unpackStr : Bytes → Option (Bytes × Bytes)
  | 2 :: rest => takeStr rest
  | _ => none

/-- `unpack::<(String, String, String, String)>`: four string elements
consuming the whole key. -/
def unpackTuple4 (b : Bytes) : Option (Bytes × Bytes × Bytes × Bytes) :=
  (unpackStr b).bind fun p1 =>
    (unpackStr p1.2).bind fun p2 =>
      (unpackStr p2.2).bind fun p3 =>
        (unpackStr p3.2).bind fun p4 =>
          if p4.2 = [] then some (p1.1, p2.1, p3.1, p4.1) else none

def isDigit (b : Nat) : Bool := 48 ≤ b && b ≤ 57

/-- `chrono::DateTime::parse_from_rfc3339` on the shape `date_string`
emits: exactly four year digits (chrono's RFC 3339 scanner demands exactly
four, so signed long years fail), `-`, `-`, `T`, `:`, `:`, `.`, three
fractional digits, `Z`.  (chrono additionally validates calendar ranges,
which never fails on the output of `date_string` for a real datetime.) -/
def parseRfc3339 (b : Bytes) : Option DT :=
  match b with
  | [y1, y2, y3, y4, 45, mo1, mo2, 45, d1, d2, 84, h1, h2, 58, mi1, mi2, 58,
     s1, s2, 46, ms1, ms2, ms3, 90] =>
    if isDigit y1 && isDigit y2 && isDigit y3 && isDigit y4 &&
        isDigit mo1 && isDigit mo2 && isDigit d1 && isDigit d2 &&
        isDigit h1 && isDigit h2 && isDigit mi1 && isDigit mi2 &&
        isDigit s1 && isDigit s2 && isDigit ms1 && isDigit ms2 && isDigit ms3 then
      some ⟨(y1 - 48) * 1000 + (y2 - 48) * 100 + (y3 - 48) * 10 + (y4 - 48),
            (mo1 - 48) * 10 + (mo2 - 48),
            (d1 - 48) * 10 + (d2 - 48),
            (h1 - 48) * 10 + (h2 - 48),
            (mi1 - 48) * 10 + (mi2 - 48),
            (s1 - 48) * 10 + (s2 - 48),
            (ms1 - 48) * 100 + (ms2 - 48) * 10 + (ms3 - 48)⟩
    else none
  | _ => none

/-- The error union of `src/main.rs` (`AnyErr`): an application error
carrying a message, or a store error carrying a code. -/
inductive AnyErr
  | any (msg : String)
  | fdb (code : Nat)
deriving DecidableEq, Repr

/-- `Session::parse_kv` (src 349-358): unpack the key as four strings, parse
the fourth as RFC 3339; the value's `from_utf8` view is carried as its raw
bytes. -/
def parse_kv (kv : Bytes × Bytes) : Except AnyErr (DT × Bytes) :=
  match unpackTuple4 kv.1 with
  | none => .error (.any "Unpacking")
  | some (_, _, _, kdt) =>
    match parseRfc3339 kdt with
    | none => .error (.any "Parsing date")
    | some dt => .ok (dt, kv.2)

/-- `kvs.iter().map(parse_kv).collect::<AnyResult<Vec<_>>>()`: first error
aborts. -/
def parseAll : List (Bytes × Bytes) → Except AnyErr (List (DT × Bytes))
  | [] => .ok []
  | kv :: rest =>
    match parse_kv kv with
    | .error e => .error e
    | .ok x =>
      match parseAll rest with
      | .error e => .error e
      | .ok xs => .ok (x :: xs)

/-! ## Session operations -/

/-- The snapshot flag the source passes to `tx.get` in `Session::init_tx`
(src line 107: `tx.get(&pack(&key), true)`). -/
def initTxSnapshotFlag : Bool := true

/-- `Session::init_tx` (src 104-116): read the presence key; error if it is
set.  Note the body performs no write. -/
def init_tx (s : Store) (room user : Bytes) : Except AnyErr Store :=
  match getSnap s (userKey room user) initTxSnapshotFlag with
  | some _ => .error (.any "Key already taken")
  | none => .ok s

/-- The session state: room, username, and the presence identifier
(`Some` while joined, `None` after leaving). -/
structure SessionT where
  room : Bytes
  username : Bytes
  id : Option Bytes
deriving DecidableEq, Repr

/-- `Session::init` (src 118-145): generate a fresh identifier (here the
caller-supplied `idv`, standing for the random 128-bit `Uuid::new_v4`), run
`init_tx`, and return the session. -/
def Session.init (s : Store) (room user idv : Bytes) :
    Except AnyErr (Store × SessionT) :=
  match init_tx s room user with
  | .error e => .error e
  | .ok s1 => .ok (s1, ⟨room, user, some idv⟩)

/-- `Session::leave_tx` (src 162-186): no-op when already left; otherwise
re-read the presence record (its stored `Uuid` bytes are compared directly,
modelling `unpack`), clear it only on a matching identifier. -/
def leave_tx (s : Store) (sess : SessionT) : Except AnyErr (Store × SessionT) :=
  match sess.id with
  | none => .ok (s, sess)
  | some myid =>
    match getSnap s (userKey sess.room sess.username) true with
    | none => .error (.any "Key is unset somehow")
    | some dbid =>
      if dbid = myid then
        .ok (clearKey s (userKey sess.room sess.username),
          { sess with id := none })
      else .error (.any "Unexpected ID")

/-- `Session::write` (src 206-225): set the message record, then set the
most-recent-message marker to the date string, in one transaction. -/
def Session.write (s : Store) (room : Bytes) (t : DT) (message : Bytes) : Store :=
  setS (setS s (messageKey room t) message) (recentKey room) (dateString t)

/-- `Session::clear` (src 147-160): clear the range of the subspace
`("rooms", room, "messages")` — and only that subspace. -/
def Session.clear (s : Store) (room : Bytes) : Store :=
  clearRangeS s (msgRangeBegin room) (msgRangeEnd room)

/-- The result of `messages_or_watch`: a message page, or a watch armed on
the given key. -/
inductive MsgOrWatch
  | msgs (l : List (DT × Bytes))
  | watch (key : Bytes)
deriving DecidableEq, Repr

/-- `Session::messages_or_watch` (src 300-347): one transaction; range-scan
starting at the subspace begin (`last = none`) or strictly after the last
key (`first_greater_than`), with `r.limit = limit`; if the scan is empty,
arm a watch on the most-recent-message marker inside the same transaction;
otherwise decode the page. -/
def beginOf (room : Bytes) : Option DT → BeginSel
  | none => .ge (msgRangeBegin room)
  | some dt => .gt (messageKey room dt)

def messages_or_watch (s : Store) (room : Bytes) (last : Option DT)
    (limit : Option Nat) : Except AnyErr MsgOrWatch :=
  let kvs := rangeRead s (beginOf room last) (msgRangeEnd room) limit
  if kvs.isEmpty then .ok (.watch (recentKey room))
  else
    match parseAll kvs with
    | .error e => .error e
    | .ok l => .ok (.msgs l)

/-! ## MessageIter -/

/-- `MessageIter` (src 361-375): cursor and buffered page. -/
structure MessageIter where
  last : Option DT
  waiting : List (DT × Bytes)
deriving DecidableEq, Repr

def MessageIter.new (last : Option DT) : MessageIter := ⟨last, []⟩

/-- Outcome of one `MessageIter::next` call against a fixed store. -/
inductive NextOutcome
  | yielded (m : DT × Bytes) (st : MessageIter)
  | blocked
  | errored (e : AnyErr)
  | panicked
deriving DecidableEq, Repr

/-- `MessageIter::next` (src 377-401) against a fixed store state: pop the
buffer if non-empty; otherwise call `messages_or_watch (last) (Some 3)`.
While the store does not change, an armed watch never resolves, so the
`w.await?` arm suspends forever: outcome `blocked`.  The two `expect` calls
(`back()` and `pop_front()`) map to `panicked` when their `Option` is
empty. -/
def MessageIter.next (s : Store) (room : Bytes) (st : MessageIter) : NextOutcome :=
  match st.waiting with
  | m :: rest => .yielded m ⟨st.last, rest⟩
  | [] =>
    match messages_or_watch s room st.last (some 3) with
    | .error e => .errored e
    | .ok (.watch _) => .blocked
    | .ok (.msgs msgs) =>
      match msgs.getLast? with
      | none => .panicked
      | some lastEntry =>
        match msgs with
        | [] => .panicked
        | m :: rest => .yielded m ⟨some lastEntry.1, rest⟩

/-- Repeatedly call `MessageIter.next`, collecting `n` yielded messages;
`none` if any call does not yield. -/
def iterRun (s : Store) (room : Bytes) :
    Nat → MessageIter → Option (List (DT × Bytes) × MessageIter)
  | 0, st => some ([], st)
  | n + 1, st =>
    match MessageIter.next s room st with
    | .yielded m st1 =>
      match iterRun s room n st1 with
      | none => none
      | some (l, stf) => some (m :: l, stf)
    | _ => none

/-- The tail of `main_loop` (src 450-461): the send/receive race result is
propagated with `?` before `session.leave()` is reached, so `leave` runs
only when the race finished without error.  The `Bool` records whether
`leave` was attempted. -/
def mainLoopFinish (race : Except AnyErr Unit) (leaveResult : Except AnyErr Unit) :
    Bool × Except AnyErr Unit :=
  match race with
  | .error e => (false, .error e)
  | .ok _ => (true, leaveResult)

/-! ## Tuple pack/unpack round trip -/

/-- The continuation after a packed string element never starts with `0xFF`
(the next element starts with a type code). -/
def noLead255 : Bytes → Prop
  | 255 :: _ => False
  | _ => True

set_option maxHeartbeats 1600000 in

/-! ## Range membership and key distinctness -/

/-- Membership in the half-open range cleared and scanned for a room's
messages subspace. -/
def inMsgRange (room k : Bytes) : Bool :=
  bytesLe (msgRangeBegin room) k && bytesLt k (msgRangeEnd room)

/-! ## Scan characterization

`messages_or_watch` over a store whose in-range entries are exactly the
encodings of a message list `M` behaves as a take/filter over `M`. -/

/-- Encode one (timestamp, text) entry as its store row. -/
def encMsg (room : Bytes) (tm : DT × Bytes) : Bytes × Bytes :=
  (messageKey room tm.1, tm.2)

/-- The entries strictly after `last` (all of them when `last = none`). -/
def msgsAfter (M : List (DT × Bytes)) : Option DT → List (DT × Bytes)
  | none => M
  | some dt => M.filter (fun tm => decide (dtLt dt tm.1))

/-- Apply an optional limit. -/
def truncOpt : Option Nat → List (DT × Bytes) → List (DT × Bytes)
  | none, l => l
  | some n, l => l.take n


theorem bytesLt_irrefl (a : Bytes) : bytesLt a a = false := by
  induction a with
  | nil => rfl
  | cons x xs ih => simp [bytesLt, ih]

theorem bytesLe_refl (a : Bytes) : bytesLe a a = true := by
  induction a with
  | nil => rfl
  | cons x xs ih => simp [bytesLe, ih]

theorem bytesLt_trans : ∀ a b c : Bytes,
    bytesLt a b = true → bytesLt b c = true → bytesLt a c = true := by
  intro a
  induction a with
  | nil =>
    intro b c hab hbc
    cases c with
    | nil =>
      cases b with
      | nil => simp [bytesLt] at hab
      | cons y ys => simp [bytesLt] at hbc
    | cons z zs => rfl
  | cons x xs ih =>
    intro b c hab hbc
    cases b with
    | nil => simp [bytesLt] at hab
    | cons y ys =>
      cases c with
      | nil => simp [bytesLt] at hbc
      | cons z zs =>
        simp only [bytesLt] at hab hbc ⊢
        split_ifs at hab hbc ⊢ <;>
          first
          | rfl
          | (exfalso; omega)
          | (exact ih ys zs hab hbc)
          | simp at hab
          | simp at hbc

theorem bytesLe_of_lt : ∀ a b : Bytes, bytesLt a b = true → bytesLe a b = true := by
  intro a
  induction a with
  | nil => intro b _; rfl
  | cons x xs ih =>
    intro b h
    cases b with
    | nil => simp [bytesLt] at h
    | cons y ys =>
      simp only [bytesLt] at h
      simp only [bytesLe]
      split_ifs at h ⊢ <;>
        first
        | rfl
        | (exfalso; omega)
        | (exact ih ys h)
        | simp at h

theorem bytesLt_of_le_of_lt : ∀ a b c : Bytes,
    bytesLe a b = true → bytesLt b c = true → bytesLt a c = true := by
  intro a
  induction a with
  | nil =>
    intro b c _ hbc
    cases c with
    | nil =>
      cases b with
      | nil => simp [bytesLt] at hbc
      | cons y ys => simp [bytesLt] at hbc
    | cons z zs => rfl
  | cons x xs ih =>
    intro b c hab hbc
    cases b with
    | nil => simp [bytesLe] at hab
    | cons y ys =>
      cases c with
      | nil => simp [bytesLt] at hbc
      | cons z zs =>
        simp only [bytesLe] at hab
        simp only [bytesLt] at hbc ⊢
        split_ifs at hab hbc ⊢ <;>
          first
          | rfl
          | (exfalso; omega)
          | (exact ih ys zs hab hbc)
          | simp at hab
          | simp at hbc

theorem bytesLt_asymm (a b : Bytes) (h : bytesLt a b = true) : bytesLt b a = false := by
  by_contra hcon
  have hba : bytesLt b a = true := by
    cases hb : bytesLt b a with
    | false => exact absurd hb hcon
    | true => rfl
  have := bytesLt_trans a b a h hba
  rw [bytesLt_irrefl] at this
  exact Bool.false_ne_true this

/-- Prepending a common prefix preserves the strict byte order. -/
theorem bytesLt_append_same : ∀ (x a b : Bytes),
    bytesLt (x ++ a) (x ++ b) = bytesLt a b := by
  intro x
  induction x with
  | nil => intro a b; rfl
  | cons c cs ih =>
    intro a b
    simp only [List.cons_append, bytesLt, lt_irrefl, if_false, if_neg (lt_irrefl c)]
    exact ih a b

/-- Prepending a common prefix preserves the non-strict byte order. -/
theorem bytesLe_append_same : ∀ (x a b : Bytes),
    bytesLe (x ++ a) (x ++ b) = bytesLe a b := by
  intro x
  induction x with
  | nil => intro a b; rfl
  | cons c cs ih =>
    intro a b
    simp only [List.cons_append, bytesLe, lt_irrefl, if_false, if_neg (lt_irrefl c)]
    exact ih a b

/-- If two equal-length segments already compare strictly, any tails keep
the comparison. -/
theorem bytesLt_append_right_of_lt : ∀ (a b c d : Bytes), a.length = b.length →
    bytesLt a b = true → bytesLt (a ++ c) (b ++ d) = true := by
  intro a
  induction a with
  | nil =>
    intro b c d hlen hab
    cases b with
    | nil => simp [bytesLt] at hab
    | cons y ys => simp at hlen
  | cons x xs ih =>
    intro b c d hlen hab
    cases b with
    | nil => simp at hlen
    | cons y ys =>
      simp only [List.length_cons, Nat.succ.injEq] at hlen
      simp only [List.cons_append]
      simp only [bytesLt] at hab ⊢
      split_ifs at hab ⊢ <;>
        first
        | rfl
        | (exfalso; omega)
        | (exact ih ys c d hlen hab)
        | simp at hab

theorem dtLt_trichotomy (a b : DT) : dtLt a b ∨ a = b ∨ dtLt b a := by
  obtain ⟨y1, mo1, d1, h1, mi1, s1, ms1⟩ := a
  obtain ⟨y2, mo2, d2, h2, mi2, s2, ms2⟩ := b
  simp only [dtLt, DT.mk.injEq]
  omega

theorem dtLt_irrefl (a : DT) : ¬dtLt a a := by
  obtain ⟨y, mo, d, h, mi, s, ms⟩ := a
  simp only [dtLt]
  omega

theorem dtLt_asymm (a b : DT) (h : dtLt a b) : ¬dtLt b a := by
  obtain ⟨y1, mo1, d1, h1, mi1, s1, ms1⟩ := a
  obtain ⟨y2, mo2, d2, h2, mi2, s2, ms2⟩ := b
  simp only [dtLt] at h ⊢
  omega

/-! ## Store lemmas -/

theorem getS_setS (s : Store) (k v key : Bytes) :
    getS (setS s k v) key = if key = k then some v else getS s key := by
  induction s with
  | nil => simp [setS, getS]
  | cons hd tl ih =>
    obtain ⟨k', v'⟩ := hd
    simp only [setS]
    split_ifs with h1 h2 <;> simp only [getS] <;> split_ifs <;>
      simp_all [getS, ih]

theorem getS_clearKey (s : Store) (k key : Bytes) :
    getS (clearKey s k) key = if key = k then none else getS s key := by
  induction s with
  | nil => simp [clearKey, getS]
  | cons hd tl ih =>
    obtain ⟨k', v'⟩ := hd
    simp only [clearKey]
    by_cases hk : k' = k
    · rw [if_pos hk, ih]
      by_cases hkey : key = k
      · simp [hkey]
      · have hne : key ≠ k' := by rw [hk]; exact hkey
        simp [getS, hkey, hne]
    · rw [if_neg hk]
      simp only [getS]
      by_cases hkey : key = k'
      · have hne : key ≠ k := by rw [hkey]; exact hk
        simp [hkey, hne, hk]
      · simp [hkey, ih]

theorem takeStr_escNul : ∀ (s r : Bytes), noLead255 r →
    takeStr (escNul s ++ 0 :: r) = some (s, r) := by
  intro s
  induction s with
  | nil =>
    intro r hr
    cases r with
    | nil => rfl
    | cons r0 rtail =>
      have h255 : r0 ≠ 255 := by
        intro h
        subst h
        exact hr
      simp [escNul, takeStr, h255]
  | cons b bs ih =>
    intro r hr
    by_cases hb : b = 0
    · subst hb
      have h1 : escNul (0 :: bs) ++ 0 :: r = 0 :: 255 :: (escNul bs ++ 0 :: r) := by
        simp [escNul]
      rw [h1]
      have h2 : takeStr (0 :: 255 :: (escNul bs ++ 0 :: r)) =
          (takeStr (escNul bs ++ 0 :: r)).map (fun sr => (0 :: sr.1, sr.2)) := rfl
      rw [h2, ih r hr]
      rfl
    · have h1 : escNul (b :: bs) ++ 0 :: r = b :: (escNul bs ++ 0 :: r) := by
        simp [escNul, hb]
      rw [h1]
      have h2 : takeStr (b :: (escNul bs ++ 0 :: r)) =
          (takeStr (escNul bs ++ 0 :: r)).map (fun sr => (b :: sr.1, sr.2)) := by
        rw [takeStr.eq_def]
        simp only []
        rw [if_neg hb]
      rw [h2, ih r hr]
      rfl

theorem noLead255_packString (x r : Bytes) : noLead255 (packString x ++ r) := by
  simp [packString, noLead255, List.cons_append]

theorem unpackStr_packString (s r : Bytes) (hr : noLead255 r) :
    unpackStr (packString s ++ r) = some (s, r) := by
  simp only [packString, List.cons_append, unpackStr]
  rw [List.append_assoc]
  exact takeStr_escNul s r hr

theorem unpackStr_packString_nil (s : Bytes) :
    unpackStr (packString s) = some (s, []) := by
  have h := unpackStr_packString s [] trivial
  rwa [List.append_nil] at h

/-- Unpacking a four-string tuple recovers the four strings. -/
theorem unpackTuple4_packTuple (a b c d : Bytes) :
    unpackTuple4 (packTuple [a, b, c, d]) = some (a, b, c, d) := by
  have h1 : packTuple [a, b, c, d] =
      packString a ++ (packString b ++ (packString c ++ packString d)) := by
    simp [packTuple]
  rw [unpackTuple4, h1]
  rw [unpackStr_packString a _ (noLead255_packString b _)]
  simp only [Option.some_bind]
  rw [unpackStr_packString b _ (noLead255_packString c _)]
  simp only [Option.some_bind]
  rw [unpackStr_packString c _ (by
    have h := noLead255_packString d ([] : Bytes)
    rwa [List.append_nil] at h)]
  simp only [Option.some_bind]
  rw [unpackStr_packString_nil d]
  simp

/-- Unpacking a three-string tuple as four strings fails. -/
theorem unpackTuple4_packTuple3 (a b c : Bytes) :
    unpackTuple4 (packTuple [a, b, c]) = none := by
  have h1 : packTuple [a, b, c] =
      packString a ++ (packString b ++ packString c) := by
    simp [packTuple]
  rw [unpackTuple4, h1]
  rw [unpackStr_packString a _ (noLead255_packString b _)]
  simp only [Option.some_bind]
  rw [unpackStr_packString b _ (by
    have h := noLead255_packString c ([] : Bytes)
    rwa [List.append_nil] at h)]
  simp only [Option.some_bind]
  rw [unpackStr_packString_nil c]
  simp [unpackStr]

/-! ## Key schema lemmas -/

theorem escNul_eq_self (s : Bytes) (h : ∀ b ∈ s, b ≠ 0) : escNul s = s := by
  induction s with
  | nil => rfl
  | cons b bs ih =>
    have hb : b ≠ 0 := h b (by simp)
    simp only [escNul, if_neg hb]
    rw [ih (fun x hx => h x (by simp [hx]))]

theorem dateString_noZero (t : DT) (hy : t.year ≤ 9999) :
    ∀ b ∈ dateString t, b ≠ 0 := by
  intro b hb
  simp only [dateString, yearBytes, if_pos hy, pad4, pad3, pad2, digit,
    List.cons_append, List.nil_append, List.mem_append, List.mem_cons,
    List.not_mem_nil, or_false] at hb
  rcases hb with hb | hb | hb | hb | hb | hb | hb | hb | hb | hb | hb | hb |
    hb | hb | hb | hb | hb | hb | hb | hb | hb | hb | hb | hb <;> omega

theorem dateString_length (t : DT) (hy : t.year ≤ 9999) :
    (dateString t).length = 24 := by
  simp [dateString, yearBytes, if_pos hy, pad4, pad3, pad2]

theorem bytesLt_cons_same (a : Nat) (x y : Bytes) :
    bytesLt (a :: x) (a :: y) = bytesLt x y := by
  simp [bytesLt]

/-- Compare equal-length leading segments followed by tails: a strict
segment or an equal segment with strictly comparing tails suffices. -/
theorem segStep (a b c d : Bytes) (hlen : a.length = b.length)
    (hcase : bytesLt a b = true ∨ (a = b ∧ bytesLt c d = true)) :
    bytesLt (a ++ c) (b ++ d) = true := by
  rcases hcase with h | ⟨he, h⟩
  · exact bytesLt_append_right_of_lt a b c d hlen h
  · subst he
    rw [bytesLt_append_same]
    exact h

theorem pad2_mono (n m : Nat) (hm : m < 100) (h : n < m) :
    bytesLt (pad2 n) (pad2 m) = true := by
  simp only [pad2, digit, bytesLt]
  split_ifs <;> first | rfl | (exfalso; omega)

theorem pad3_mono (n m : Nat) (hm : m < 1000) (h : n < m) :
    bytesLt (pad3 n) (pad3 m) = true := by
  simp only [pad3, digit, bytesLt]
  split_ifs <;> first | rfl | (exfalso; omega)

theorem pad4_mono (n m : Nat) (hm : m < 10000) (h : n < m) :
    bytesLt (pad4 n) (pad4 m) = true := by
  simp only [pad4, pad2, digit, List.cons_append, List.nil_append, bytesLt]
  split_ifs <;> first | rfl | (exfalso; omega)

/-- Chronological order of the fields yields strict byte order of the
rendered RFC 3339 strings, as long as both years print as four digits. -/
theorem dateString_lt (t u : DT) (ht : ValidDT t) (hu : ValidDT u)
    (hyt : t.year ≤ 9999) (hyu : u.year ≤ 9999) (h : dtLt t u) :
    bytesLt (dateString t) (dateString u) = true := by
  obtain ⟨y1, mo1, d1, h1, mi1, s1, ms1⟩ := t
  obtain ⟨y2, mo2, d2, h2, mi2, s2, ms2⟩ := u
  simp only [ValidDT] at ht hu
  simp only [dtLt] at h
  simp only at hyt hyu
  simp only [dateString, yearBytes, if_pos hyt, if_pos hyu, List.append_assoc,
    List.singleton_append, List.cons_append, List.nil_append]
  apply segStep _ _ _ _ (by simp [pad4, pad2])
  rcases h with hy | ⟨hy, h⟩
  · exact Or.inl (pad4_mono y1 y2 (by omega) hy)
  · refine Or.inr ⟨by rw [hy], ?_⟩
    rw [bytesLt_cons_same]
    apply segStep _ _ _ _ (by simp [pad2])
    rcases h with hmo | ⟨hmo, h⟩
    · exact Or.inl (pad2_mono mo1 mo2 (by omega) hmo)
    · refine Or.inr ⟨by rw [hmo], ?_⟩
      rw [bytesLt_cons_same]
      apply segStep _ _ _ _ (by simp [pad2])
      rcases h with hd | ⟨hd, h⟩
      · exact Or.inl (pad2_mono d1 d2 (by omega) hd)
      · refine Or.inr ⟨by rw [hd], ?_⟩
        rw [bytesLt_cons_same]
        apply segStep _ _ _ _ (by simp [pad2])
        rcases h with hh | ⟨hh, h⟩
        · exact Or.inl (pad2_mono h1 h2 (by omega) hh)
        · refine Or.inr ⟨by rw [hh], ?_⟩
          rw [bytesLt_cons_same]
          apply segStep _ _ _ _ (by simp [pad2])
          rcases h with hmi | ⟨hmi, h⟩
          · exact Or.inl (pad2_mono mi1 mi2 (by omega) hmi)
          · refine Or.inr ⟨by rw [hmi], ?_⟩
            rw [bytesLt_cons_same]
            apply segStep _ _ _ _ (by simp [pad2])
            rcases h with hs | ⟨hs, h⟩
            · exact Or.inl (pad2_mono s1 s2 (by omega) hs)
            · refine Or.inr ⟨by rw [hs], ?_⟩
              rw [bytesLt_cons_same]
              apply segStep _ _ _ _ (by simp [pad3])
              exact Or.inl (pad3_mono ms1 ms2 (by omega) h)

/-- Parsing the rendered string recovers the fields (four-digit years). -/
theorem parseRfc3339_dateString (t : DT) (ht : ValidDT t) (hy : t.year ≤ 9999) :
    parseRfc3339 (dateString t) = some t := by
  obtain ⟨y, mo, d, h, mi, s, ms⟩ := t
  simp only [ValidDT] at ht
  simp only at hy
  simp only [dateString, yearBytes, if_pos hy, pad4, pad3, pad2, digit,
    List.cons_append, List.nil_append]
  simp only [parseRfc3339, isDigit]
  rw [if_pos (by
    simp only [Bool.and_eq_true, decide_eq_true_eq]
    omega)]
  simp only [Option.some.injEq, DT.mk.injEq]
  omega

theorem messageKey_eq (room : Bytes) (t : DT) :
    messageKey room t = msgSubspace room ++ packString (dateString t) := by
  simp [messageKey, msgSubspace, packTuple, List.append_assoc]

/-- Strict monotonicity of the packed message key in the timestamp. -/
theorem messageKey_lt (room : Bytes) (t u : DT) (ht : ValidDT t) (hu : ValidDT u)
    (hyt : t.year ≤ 9999) (hyu : u.year ≤ 9999) (h : dtLt t u) :
    bytesLt (messageKey room t) (messageKey room u) = true := by
  rw [messageKey_eq, messageKey_eq, bytesLt_append_same]
  rw [packString, packString, escNul_eq_self _ (dateString_noZero t hyt),
    escNul_eq_self _ (dateString_noZero u hyu)]
  simp only [List.cons_append]
  rw [bytesLt_cons_same]
  exact bytesLt_append_right_of_lt _ _ _ _
    (by rw [dateString_length t hyt, dateString_length u hyu])
    (dateString_lt t u ht hu hyt hyu h)

/-- Injectivity of the message key in the timestamp (four-digit years). -/
theorem messageKey_inj (room : Bytes) (t u : DT) (ht : ValidDT t) (hu : ValidDT u)
    (hyt : t.year ≤ 9999) (hyu : u.year ≤ 9999)
    (h : messageKey room t = messageKey room u) : t = u := by
  have hds : dateString t = dateString u := by
    rw [messageKey_eq, messageKey_eq] at h
    have h2 := List.append_cancel_left h
    simp only [packString, List.cons_append] at h2
    have h3 : escNul (dateString t) ++ [0] = escNul (dateString u) ++ [0] :=
      List.cons_injective h2
    have h4 := List.append_cancel_right h3
    rwa [escNul_eq_self _ (dateString_noZero t hyt),
      escNul_eq_self _ (dateString_noZero u hyu)] at h4
  have hp : parseRfc3339 (dateString t) = parseRfc3339 (dateString u) := by
    rw [hds]
  rw [parseRfc3339_dateString t ht hyt, parseRfc3339_dateString u hu hyu] at hp
  exact Option.some.inj hp

/-- The byte comparison of two message keys of the same room computes the
chronological comparison (four-digit years). -/
theorem messageKey_lt_iff (room : Bytes) (t u : DT) (ht : ValidDT t)
    (hu : ValidDT u) (hyt : t.year ≤ 9999) (hyu : u.year ≤ 9999) :
    bytesLt (messageKey room t) (messageKey room u) = decide (dtLt t u) := by
  rcases dtLt_trichotomy t u with htu | htu | htu
  · rw [messageKey_lt room t u ht hu hyt hyu htu, decide_eq_true htu]
  · subst htu
    rw [bytesLt_irrefl]
    exact (decide_eq_false (dtLt_irrefl t)).symm
  · have h1 : bytesLt (messageKey room u) (messageKey room t) = true :=
      messageKey_lt room u t hu ht hyu hyt htu
    rw [bytesLt_asymm _ _ h1]
    exact (decide_eq_false (dtLt_asymm u t htu)).symm

theorem clear_eq_filter (s : Store) (room : Bytes) :
    Session.clear s room = s.filter (fun kv => !(inMsgRange room kv.1)) := rfl

theorem packString_cons (s : Bytes) :
    packString s = 2 :: (escNul s ++ [0]) := by
  simp [packString]

theorem bytesLt_cons_of_lt {a b : Nat} (h : a < b) (x y : Bytes) :
    bytesLt (a :: x) (b :: y) = true := by
  simp [bytesLt, h]

theorem bytesLt_cons_of_gt {a b : Nat} (h : b < a) (x y : Bytes) :
    bytesLt (a :: x) (b :: y) = false := by
  have h1 : ¬a < b := by omega
  simp [bytesLt, h1, h]

/-- Every packed message key lies inside the room's messages range. -/
theorem messageKey_inMsgRange (room : Bytes) (t : DT) :
    inMsgRange room (messageKey room t) = true := by
  rw [inMsgRange, messageKey_eq, packString_cons]
  apply Bool.and_eq_true_iff.mpr
  constructor
  · rw [msgRangeBegin, bytesLe_append_same]
    simp [bytesLe]
  · rw [msgRangeEnd, bytesLt_append_same]
    exact bytesLt_cons_of_lt (by omega) _ _

/-- The packed user-presence key of the room lies outside the room's
messages range (`"users"` sorts after the end sentinel at `"messages"`). -/
theorem userKey_not_inMsgRange (room u : Bytes) :
    inMsgRange room (userKey room u) = false := by
  have h1 : userKey room u =
      (packString (ascii "rooms") ++ packString room) ++
        (packString (ascii "users") ++ packString u) := by
    simp [userKey, packTuple, List.append_assoc]
  have h2 : msgRangeEnd room =
      (packString (ascii "rooms") ++ packString room) ++
        (packString (ascii "messages") ++ [255]) := by
    simp [msgRangeEnd, msgSubspace, packTuple, List.append_assoc]
  have hlt : bytesLt (userKey room u) (msgRangeEnd room) = false := by
    rw [h1, h2, bytesLt_append_same]
    have hu : escNul (ascii "users") = [117, 115, 101, 114, 115] := by decide
    have hm : escNul (ascii "messages") =
        [109, 101, 115, 115, 97, 103, 101, 115] := by decide
    simp only [packString_cons, hu, hm, List.cons_append, List.nil_append,
      List.append_assoc]
    rw [bytesLt_cons_same]
    exact bytesLt_cons_of_gt (by omega) _ _
  simp [inMsgRange, hlt]

/-- The most-recent-message marker of the room lies outside the room's
messages range (`"most_recent_message"` sorts after `"messages"`). -/
theorem recentKey_not_inMsgRange (room : Bytes) :
    inMsgRange room (recentKey room) = false := by
  have h1 : recentKey room =
      (packString (ascii "rooms") ++ packString room) ++
        packString (ascii "most_recent_message") := by
    simp [recentKey, packTuple, List.append_assoc]
  have h2 : msgRangeEnd room =
      (packString (ascii "rooms") ++ packString room) ++
        (packString (ascii "messages") ++ [255]) := by
    simp [msgRangeEnd, msgSubspace, packTuple, List.append_assoc]
  have hlt : bytesLt (recentKey room) (msgRangeEnd room) = false := by
    rw [h1, h2, bytesLt_append_same]
    have hr : escNul (ascii "most_recent_message") =
        [109, 111, 115, 116, 95, 114, 101, 99, 101, 110, 116, 95, 109, 101,
          115, 115, 97, 103, 101] := by decide
    have hm : escNul (ascii "messages") =
        [109, 101, 115, 115, 97, 103, 101, 115] := by decide
    simp only [packString_cons, hr, hm, List.cons_append, List.nil_append,
      List.append_assoc]
    rw [bytesLt_cons_same, bytesLt_cons_same]
    exact bytesLt_cons_of_gt (by omega) _ _
  simp [inMsgRange, hlt]

/-- A user-presence key never coincides with a message key. -/
theorem userKey_ne_messageKey (r1 u r2 : Bytes) (t : DT) :
    userKey r1 u ≠ messageKey r2 t := by
  intro h
  have h1 := unpackTuple4_packTuple (ascii "rooms") r1 (ascii "users") u
  have h2 := unpackTuple4_packTuple (ascii "rooms") r2 (ascii "messages")
    (dateString t)
  rw [show packTuple [ascii "rooms", r1, ascii "users", u] = userKey r1 u
      from rfl] at h1
  rw [show packTuple [ascii "rooms", r2, ascii "messages", dateString t] =
      messageKey r2 t from rfl] at h2
  rw [h, h2] at h1
  have h3 := Option.some.inj h1
  have : ascii "messages" = ascii "users" := congrArg (fun q => q.2.2.1) h3
  exact absurd this (by decide)

/-- A most-recent-message marker key never coincides with a message key. -/
theorem recentKey_ne_messageKey (r1 r2 : Bytes) (t : DT) :
    recentKey r1 ≠ messageKey r2 t := by
  intro h
  have h1 := unpackTuple4_packTuple3 (ascii "rooms") r1
    (ascii "most_recent_message")
  have h2 := unpackTuple4_packTuple (ascii "rooms") r2 (ascii "messages")
    (dateString t)
  rw [show packTuple [ascii "rooms", r1, ascii "most_recent_message"] =
      recentKey r1 from rfl] at h1
  rw [show packTuple [ascii "rooms", r2, ascii "messages", dateString t] =
      messageKey r2 t from rfl] at h2
  rw [h, h2] at h1
  exact Option.noConfusion h1

theorem mem_of_mem_truncOpt_msgsAfter {M : List (DT × Bytes)}
    {limit : Option Nat} {last : Option DT} {tm : DT × Bytes}
    (h : tm ∈ truncOpt limit (msgsAfter M last)) : tm ∈ M := by
  have h1 : tm ∈ msgsAfter M last := by
    cases limit with
    | none => exact h
    | some n => exact List.mem_of_mem_take h
  cases last with
  | none => exact h1
  | some dt => exact List.mem_of_mem_filter h1

/-- Decoding the encoding of a message row succeeds and recovers it. -/
theorem parse_kv_messageKey (room : Bytes) (t : DT) (v : Bytes)
    (ht : ValidDT t) (hy : t.year ≤ 9999) :
    parse_kv (messageKey room t, v) = .ok (t, v) := by
  have h1 : unpackTuple4 (messageKey room t) =
      some (ascii "rooms", room, ascii "messages", dateString t) :=
    unpackTuple4_packTuple _ _ _ _
  simp [parse_kv, h1, parseRfc3339_dateString t ht hy]

theorem parseAll_map (room : Bytes) (L : List (DT × Bytes))
    (hV : ∀ tm ∈ L, ValidDT tm.1 ∧ tm.1.year ≤ 9999) :
    parseAll (L.map (encMsg room)) = .ok L := by
  induction L with
  | nil => rfl
  | cons a l ih =>
    obtain ⟨ha1, ha2⟩ := hV a (List.mem_cons_self a l)
    have h1 : parse_kv (encMsg room a) = .ok (a.1, a.2) :=
      parse_kv_messageKey room a.1 a.2 ha1 ha2
    have h2 := ih (fun tm htm => hV tm (List.mem_cons_of_mem a htm))
    simp [parseAll, h1, h2]

/-- The range scan of `messages_or_watch` equals, entrywise, the
timestamp-level take/filter of the encoded message list. -/
theorem rangeRead_eq (s : Store) (room : Bytes) (M : List (DT × Bytes))
    (last : Option DT) (limit : Option Nat)
    (hM : s.filter (fun kv => inMsgRange room kv.1) = M.map (encMsg room))
    (hV : ∀ tm ∈ M, ValidDT tm.1 ∧ tm.1.year ≤ 9999)
    (hlast : ∀ dt, last = some dt → ValidDT dt ∧ dt.year ≤ 9999) :
    rangeRead s (beginOf room last) (msgRangeEnd room) limit =
      (truncOpt limit (msgsAfter M last)).map (encMsg room) := by
  have hfilter : s.filter (fun kv =>
      beginMatch (beginOf room last) kv.1 && bytesLt kv.1 (msgRangeEnd room)) =
      (msgsAfter M last).map (encMsg room) := by
    cases last with
    | none =>
      have he : (fun kv : Bytes × Bytes =>
          beginMatch (beginOf room none) kv.1 &&
            bytesLt kv.1 (msgRangeEnd room)) =
          fun kv => inMsgRange room kv.1 := rfl
      rw [he, hM]
      rfl
    | some dt =>
      obtain ⟨hdt1, hdt2⟩ := hlast dt rfl
      have h1 : s.filter (fun kv =>
          beginMatch (beginOf room (some dt)) kv.1 &&
            bytesLt kv.1 (msgRangeEnd room)) =
          s.filter (fun kv =>
            bytesLt (messageKey room dt) kv.1 && inMsgRange room kv.1) := by
        apply List.filter_congr
        intro kv _
        show (bytesLt (messageKey room dt) kv.1 &&
            bytesLt kv.1 (msgRangeEnd room)) = _
        cases hgt : bytesLt (messageKey room dt) kv.1 with
        | false => simp
        | true =>
          simp only [Bool.true_and]
          rw [inMsgRange]
          have hle : bytesLe (msgRangeBegin room) kv.1 = true := by
            have hin := messageKey_inMsgRange room dt
            rw [inMsgRange, Bool.and_eq_true] at hin
            exact bytesLe_of_lt _ _ (bytesLt_of_le_of_lt _ _ _ hin.1 hgt)
          rw [hle, Bool.true_and]
      rw [h1, ← List.filter_filter, hM, List.filter_map]
      have h2 : M.filter ((fun kv : Bytes × Bytes =>
          bytesLt (messageKey room dt) kv.1) ∘ encMsg room) =
          M.filter (fun tm => decide (dtLt dt tm.1)) := by
        apply List.filter_congr
        intro tm htm
        obtain ⟨h3, h4⟩ := hV tm htm
        show bytesLt (messageKey room dt) (messageKey room tm.1) = _
        exact messageKey_lt_iff room dt tm.1 hdt1 h3 hdt2 h4
      rw [h2]
      rfl
  cases limit with
  | none => simpa [rangeRead, truncOpt] using hfilter
  | some n =>
    simp only [rangeRead, truncOpt]
    rw [hfilter, List.map_take]

/-- `messages_or_watch` over an encoded message store: returns the decoded
take/filter page when non-empty, otherwise a watch armed on the
most-recent-message marker. -/
theorem messages_or_watch_spec (s : Store) (room : Bytes)
    (M : List (DT × Bytes)) (last : Option DT) (limit : Option Nat)
    (hM : s.filter (fun kv => inMsgRange room kv.1) = M.map (encMsg room))
    (hV : ∀ tm ∈ M, ValidDT tm.1 ∧ tm.1.year ≤ 9999)
    (hlast : ∀ dt, last = some dt → ValidDT dt ∧ dt.year ≤ 9999) :
    messages_or_watch s room last limit =
      if (truncOpt limit (msgsAfter M last)).isEmpty
      then .ok (.watch (recentKey room))
      else .ok (.msgs (truncOpt limit (msgsAfter M last))) := by
  have hr := rangeRead_eq s room M last limit hM hV hlast
  simp only [messages_or_watch, hr]
  cases hsel : truncOpt limit (msgsAfter M last) with
  | nil => simp
  | cons a l =>
    have hVsel : ∀ tm ∈ a :: l, ValidDT tm.1 ∧ tm.1.year ≤ 9999 := by
      intro tm htm
      exact hV tm (mem_of_mem_truncOpt_msgsAfter (hsel ▸ htm))
    have hp : parseAll (encMsg room a :: List.map (encMsg room) l) =
        .ok (a :: l) := by
      have h0 := parseAll_map room (a :: l) hVsel
      simpa using h0
    simp [hp]

/-! ## Iterator run analysis -/

theorem mem_of_getLastOpt {α : Type} :
    ∀ (l : List α) (x : α), l.getLast? = some x → x ∈ l := by
  intro l
  induction l with
  | nil =>
    intro x hx
    rw [List.getLast?_nil] at hx
    exact Option.noConfusion hx
  | cons a tl ih =>
    intro x hx
    cases tl with
    | nil =>
      rw [List.getLast?_singleton] at hx
      rw [← Option.some.inj hx]
      exact List.mem_cons_self a []
    | cons b tl2 =>
      rw [List.getLast?_cons_cons] at hx
      exact List.mem_cons_of_mem a (ih x hx)

/-- In a strictly ascending message list, the last element dominates every
element: each is the last one or strictly before it. -/
theorem getLast_dominates :
    ∀ (A : List (DT × Bytes)), List.Pairwise (fun a b => dtLt a.1 b.1) A →
      ∀ (x : DT × Bytes), A.getLast? = some x →
        ∀ a ∈ A, a = x ∨ dtLt a.1 x.1 := by
  intro A
  induction A with
  | nil =>
    intro _ x hx
    rw [List.getLast?_nil] at hx
    exact Option.noConfusion hx
  | cons h tl ih =>
    intro hS x hx a ha
    cases tl with
    | nil =>
      have hax : a = h := by simpa using ha
      have hhx : h = x := by
        rw [List.getLast?_singleton] at hx
        exact Option.some.inj hx
      exact Or.inl (hax.trans hhx)
    | cons b tl2 =>
      rw [List.getLast?_cons_cons] at hx
      rcases List.mem_cons.mp ha with rfl | ha2
      · have hxmem : x ∈ b :: tl2 := mem_of_getLastOpt _ x hx
        exact Or.inr ((List.pairwise_cons.mp hS).1 x hxmem)
      · exact ih (List.pairwise_cons.mp hS).2 x hx a ha2

/-- Filtering a sorted list for entries strictly after the last element of
a prefix removes exactly that prefix. -/
theorem filter_dtLt_getLast (A B : List (DT × Bytes)) (x : DT × Bytes)
    (hS : List.Pairwise (fun a b => dtLt a.1 b.1) (A ++ B))
    (hx : A.getLast? = some x) :
    (A ++ B).filter (fun tm => decide (dtLt x.1 tm.1)) = B := by
  obtain ⟨hSA, hSB, hcross⟩ := List.pairwise_append.mp hS
  rw [List.filter_append]
  have hxA : x ∈ A := mem_of_getLastOpt A x hx
  have h1 : A.filter (fun tm => decide (dtLt x.1 tm.1)) = [] := by
    rw [List.filter_eq_nil_iff]
    intro a ha
    rcases getLast_dominates A hSA x hx a ha with rfl | hlt
    · simp [dtLt_irrefl]
    · simp [dtLt_asymm a.1 x.1 hlt]
  have h2 : B.filter (fun tm => decide (dtLt x.1 tm.1)) = B := by
    rw [List.filter_eq_self]
    intro b hb
    simp [hcross x hxA b hb]
  rw [h1, h2, List.nil_append]

/-- Invariant-preserving run of the iterator: starting from a state whose
buffer and remaining filter cover exactly `M.drop i`, running `n = len - i`
steps yields exactly `M.drop i` and finishes with an exhausted state. -/
theorem iterRun_inv (s : Store) (room : Bytes) (M : List (DT × Bytes))
    (hM : s.filter (fun kv => inMsgRange room kv.1) = M.map (encMsg room))
    (hV : ∀ tm ∈ M, ValidDT tm.1 ∧ tm.1.year ≤ 9999)
    (hSort : List.Pairwise (fun a b => dtLt a.1 b.1) M) :
    ∀ (n i : Nat) (st : MessageIter), i + n = M.length →
      st.waiting ++ msgsAfter M st.last = M.drop i →
      (∀ dt, st.last = some dt → ValidDT dt ∧ dt.year ≤ 9999) →
      ∃ stf, iterRun s room n st = some (M.drop i, stf) ∧
        stf.waiting = [] ∧ msgsAfter M stf.last = [] ∧
        (∀ dt, stf.last = some dt → ValidDT dt ∧ dt.year ≤ 9999) := by
  intro n
  induction n with
  | zero =>
    intro i st hi hInv hLV
    have hdrop : M.drop i = [] := by
      rw [show i = M.length by omega]
      exact List.drop_length M
    rw [hdrop] at hInv
    refine ⟨st, ?_, (List.append_eq_nil.mp hInv).1,
      (List.append_eq_nil.mp hInv).2, hLV⟩
    rw [iterRun, hdrop]
  | succ n ih =>
    intro i st hi hInv hLV
    have hiL : i < M.length := by omega
    obtain ⟨m, st2, hnext, hm, hInv2, hLV2⟩ : ∃ m st2,
        MessageIter.next s room st = .yielded m st2 ∧
        M.drop i = m :: M.drop (i + 1) ∧
        st2.waiting ++ msgsAfter M st2.last = M.drop (i + 1) ∧
        (∀ dt, st2.last = some dt → ValidDT dt ∧ dt.year ≤ 9999) := by
      cases hw : st.waiting with
      | cons m rest =>
        rw [hw] at hInv
        have h1 : M.drop i = m :: (rest ++ msgsAfter M st.last) := by
          rw [← hInv]
          rfl
        have h2 : M.drop (i + 1) = rest ++ msgsAfter M st.last := by
          rw [← List.tail_drop M i, h1]
          rfl
        refine ⟨m, ⟨st.last, rest⟩, ?_, ?_, h2.symm, hLV⟩
        · simp [MessageIter.next, hw]
        · rw [h1, h2]
      | nil =>
        rw [hw] at hInv
        have hafter : msgsAfter M st.last = M.drop i := by simpa using hInv
        obtain ⟨m, D, hD⟩ : ∃ m D, M.drop i = m :: D := by
          cases hdi : M.drop i with
          | nil =>
            exfalso
            have hlen := congrArg List.length hdi
            rw [List.length_drop] at hlen
            simp at hlen
            omega
          | cons m D => exact ⟨m, D, rfl⟩
        have hD2 : M.drop (i + 1) = D := by
          rw [← List.tail_drop M i, hD]
          rfl
        have hsel : truncOpt (some 3) (msgsAfter M st.last) = m :: D.take 2 := by
          rw [truncOpt, hafter, hD]
          rfl
        have hmow := messages_or_watch_spec s room M st.last (some 3) hM hV hLV
        rw [hsel] at hmow
        have hmow2 : messages_or_watch s room st.last (some 3) =
            .ok (.msgs (m :: D.take 2)) := by
          rw [hmow]
          simp
        obtain ⟨x, hx⟩ : ∃ x, (m :: D.take 2).getLast? = some x := by
          cases hgl : (m :: D.take 2).getLast? with
          | none =>
            exact absurd (List.getLast?_eq_none_iff.mp hgl) (by simp)
          | some x => exact ⟨x, rfl⟩
        have hA : M = (M.take i ++ (m :: D.take 2)) ++ D.drop 2 := by
          rw [List.append_assoc, List.cons_append, List.take_append_drop,
            ← hD, List.take_append_drop]
        have hlastA : (M.take i ++ (m :: D.take 2)).getLast? = some x := by
          rw [List.getLast?_append, hx]
          rfl
        have hfilt : M.filter (fun tm => decide (dtLt x.1 tm.1)) = D.drop 2 := by
          conv_lhs => rw [hA]
          exact filter_dtLt_getLast _ _ x (hA ▸ hSort) hlastA
        refine ⟨m, ⟨some x.1, D.take 2⟩, ?_, ?_, ?_, ?_⟩
        · simp [MessageIter.next, hw, hmow2, hx]
        · rw [hD2]
          exact hD
        · show D.take 2 ++ msgsAfter M (some x.1) = M.drop (i + 1)
          rw [show msgsAfter M (some x.1) =
              M.filter (fun tm => decide (dtLt x.1 tm.1)) from rfl,
            hfilt, hD2, List.take_append_drop]
        · intro dt hdt
          have hdtx : dt = x.1 := (Option.some.inj hdt).symm
          subst hdtx
          apply hV
          have hxmem : x ∈ m :: D.take 2 := mem_of_getLastOpt _ x hx
          have hxmem2 : x ∈ M.drop i := by
            rw [hD]
            rcases List.mem_cons.mp hxmem with rfl | hxm
            · exact List.mem_cons_self _ _
            · exact List.mem_cons_of_mem _ (List.mem_of_mem_take hxm)
          exact List.mem_of_mem_drop hxmem2
    obtain ⟨stf, hrun, hwf, haf, hlvf⟩ := ih (i + 1) st2 (by omega) hInv2 hLV2
    refine ⟨stf, ?_, hwf, haf, hlvf⟩
    simp only [iterRun, hnext, hrun, hm]

/-- `messages_or_watch` in the list branch never returns an empty page. -/
theorem parseAll_ok_ne_nil (kvs : List (Bytes × Bytes))
    (l : List (DT × Bytes)) (hk : kvs ≠ []) (h : parseAll kvs = .ok l) :
    l ≠ [] := by
  cases kvs with
  | nil => exact absurd rfl hk
  | cons kv rest =>
    simp only [parseAll] at h
    cases hp : parse_kv kv with
    | error e => simp [hp] at h
    | ok x =>
      simp only [hp] at h
      cases hr : parseAll rest with
      | error e => simp [hr] at h
      | ok xs =>
        simp only [hr] at h
        have : x :: xs = l := Except.ok.inj h
        rw [← this]
        exact List.cons_ne_nil x xs

theorem mow_msgs_ne_nil (s : Store) (room : Bytes) (last : Option DT)
    (limit : Option Nat) (l : List (DT × Bytes))
    (h : messages_or_watch s room last limit = .ok (.msgs l)) : l ≠ [] := by
  simp only [messages_or_watch] at h
  by_cases hke :
      (rangeRead s (beginOf room last) (msgRangeEnd room) limit).isEmpty
  · rw [if_pos hke] at h
    exact absurd (Except.ok.inj h) (by simp)
  · rw [if_neg hke] at h
    cases hp : parseAll (rangeRead s (beginOf room last) (msgRangeEnd room)
        limit) with
    | error e => simp [hp] at h
    | ok l2 =>
      simp only [hp] at h
      have h2 := Except.ok.inj h
      have h3 : l2 = l := by injection h2
      rw [← h3]
      exact parseAll_ok_ne_nil _ _
        (fun hnil => hke (by rw [hnil]; rfl)) hp

/-- One `MessageIter.next` call can never reach the `expect` panics. -/
theorem next_ne_panicked (s : Store) (room : Bytes) (st : MessageIter) :
    MessageIter.next s room st ≠ .panicked := by
  cases hw : st.waiting with
  | cons m rest => simp [MessageIter.next, hw]
  | nil =>
    cases hmow : messages_or_watch s room st.last (some 3) with
    | error e => simp [MessageIter.next, hw, hmow]
    | ok r =>
      cases r with
      | watch k => simp [MessageIter.next, hw, hmow]
      | msgs l =>
        have hne := mow_msgs_ne_nil s room st.last (some 3) l hmow
        cases l with
        | nil => exact absurd rfl hne
        | cons m rest =>
          cases hx : (m :: rest).getLast? with
          | none =>
            exact absurd (List.getLast?_eq_none_iff.mp hx) (by simp)
          | some x => simp [MessageIter.next, hw, hmow, hx]

/-! ## Claim theorems -/

/-- C1: the spec claims a second `join(R, U)` while the first session is
live fails with `UsernameTaken`; in the code `init_tx` never writes the
presence record, so the second `Session::init` succeeds as well and returns
a live session.  This contradicts the code's own `leave_tx`, which expects
the record to be set ("Key is unset somehow"). -/
theorem C1_second_join_succeeds (room user id1 id2 : Bytes) :
    ∃ s1 sess1, Session.init [] room user id1 = .ok (s1, sess1) ∧
      sess1.id = some id1 ∧
      ∃ sess2, Session.init s1 room user id2 = .ok (s1, sess2) :=
  ⟨[], ⟨room, user, some id1⟩, rfl, rfl, ⟨room, user, some id2⟩, rfl⟩

/-- C2: the spec claims a successful join writes the User Presence Record
and a read of that key then yields the fresh identifier; in the code
`init_tx` only reads the key and returns, so after a successful join from
an empty store the presence key is still unset. -/
theorem C2_join_writes_no_presence_record (room user idv : Bytes) :
    Session.init [] room user idv = .ok ([], ⟨room, user, some idv⟩) ∧
    getS [] (userKey room user) = none ∧
    ∀ w, getS [] (userKey room user) ≠ some w :=
  ⟨rfl, rfl, fun _ h => Option.noConfusion h⟩

/-- C3: the spec demands the presence-check read be issued at full
(non-snapshot) isolation, i.e. with the snapshot flag off; the source
passes `true` for the snapshot flag (`tx.get(&pack(&key), true)`,
src line 107). -/
theorem C3_check_read_uses_snapshot :
    initTxSnapshotFlag = true ∧ initTxSnapshotFlag ≠ false :=
  ⟨rfl, fun h => Bool.noConfusion h⟩

/-- C4 counterexample: `Session::clear` only clears the messages subspace,
so after clearing room "r1" holding a presence record, a marker and one
message, the presence record and the marker — both keys under
`("rooms", "r1")` — are still present, contrary to the claim that no key
with that prefix remains. -/
theorem C4_clear_leaves_presence_and_marker :
    getS (Session.clear
        [(userKey (ascii "r1") (ascii "alice"), ascii "uuid-1"),
         (recentKey (ascii "r1"), dateString ⟨2020, 1, 2, 3, 4, 5, 6⟩),
         (messageKey (ascii "r1") ⟨2020, 1, 2, 3, 4, 5, 6⟩, ascii "hi")]
        (ascii "r1"))
      (userKey (ascii "r1") (ascii "alice")) = some (ascii "uuid-1") ∧
    getS (Session.clear
        [(userKey (ascii "r1") (ascii "alice"), ascii "uuid-1"),
         (recentKey (ascii "r1"), dateString ⟨2020, 1, 2, 3, 4, 5, 6⟩),
         (messageKey (ascii "r1") ⟨2020, 1, 2, 3, 4, 5, 6⟩, ascii "hi")]
        (ascii "r1"))
      (recentKey (ascii "r1")) = some (dateString ⟨2020, 1, 2, 3, 4, 5, 6⟩) ∧
    getS (Session.clear
        [(userKey (ascii "r1") (ascii "alice"), ascii "uuid-1"),
         (recentKey (ascii "r1"), dateString ⟨2020, 1, 2, 3, 4, 5, 6⟩),
         (messageKey (ascii "r1") ⟨2020, 1, 2, 3, 4, 5, 6⟩, ascii "hi")]
        (ascii "r1"))
      (messageKey (ascii "r1") ⟨2020, 1, 2, 3, 4, 5, 6⟩) = none := by
  decide

/-- C4 (amended): `clear(R)` deletes, in one transaction, exactly the
entries whose key lies in R's messages subspace range; message records are
in that range, while the presence records and the most-recent-message
marker of R are outside it and remain. -/
theorem C4_clear_messages_only (s : Store) (room u : Bytes) (t : DT)
    (kv : Bytes × Bytes) :
    (kv ∈ Session.clear s room ↔ (kv ∈ s ∧ inMsgRange room kv.1 = false)) ∧
    inMsgRange room (messageKey room t) = true ∧
    inMsgRange room (userKey room u) = false ∧
    inMsgRange room (recentKey room) = false := by
  refine ⟨?_, messageKey_inMsgRange room t, userKey_not_inMsgRange room u,
    recentKey_not_inMsgRange room⟩
  rw [clear_eq_filter]
  simp [List.mem_filter]

/-- C5 counterexample: when the send/receive race ends in an error, the
`?` operator in `main_loop` returns that error before `session.leave()` is
reached: leave is not attempted (first component `false`). -/
theorem C5_error_returns_before_leave :
    mainLoopFinish (.error (.any "Failed getting input line")) (.ok ()) =
      (false, .error (.any "Failed getting input line")) := rfl

/-- C5 (amended): an unrecoverable error of the send/receive race is
returned immediately and `leave()` is not attempted; `leave()` runs only
when the race finished cleanly, and then its own result is the reported
outcome. -/
theorem C5_leave_only_after_clean_race (e : AnyErr) (l : Except AnyErr Unit) :
    mainLoopFinish (.error e) l = (false, .error e) ∧
    mainLoopFinish (.ok ()) l = (true, l) :=
  ⟨rfl, rfl⟩

/-- C8 counterexample: chrono renders years above 9999 with a leading sign
(`{:+05}`), so the key for the chronologically later instant
`+10000-01-01T00:00:00.000Z` compares below the key for
`9999-12-31T23:59:59.999Z` (`'+'` = 0x2B sorts before digits): byte order
does not follow chronological order for every pair of timestamps. -/
theorem C8_order_breaks_at_year_10000 :
    dtLt ⟨9999, 12, 31, 23, 59, 59, 999⟩ ⟨10000, 1, 1, 0, 0, 0, 0⟩ ∧
    bytesLt (messageKey (ascii "r1") ⟨9999, 12, 31, 23, 59, 59, 999⟩)
      (messageKey (ascii "r1") ⟨10000, 1, 1, 0, 0, 0, 0⟩) = false := by
  decide

/-- C8 (amended): for message keys of timestamps whose year renders as four
digits (`year ≤ 9999`), decode (`parse_kv`) inverts encode, and the encoded
key order agrees with chronological order. -/
theorem C8_roundtrip_and_order (room : Bytes) (t u : DT) (v : Bytes)
    (ht : ValidDT t) (hu : ValidDT u) (hyt : t.year ≤ 9999)
    (hyu : u.year ≤ 9999) :
    parse_kv (messageKey room t, v) = .ok (t, v) ∧
    (dtLt t u → bytesLt (messageKey room t) (messageKey room u) = true) := by
  constructor
  · exact parse_kv_messageKey room t v ht hyt
  · exact messageKey_lt room t u ht hu hyt hyu

/-- C8 witness: the amended statement instantiated at room "r1" and two
concrete close timestamps. -/
theorem C8_roundtrip_and_order_witness :
    parse_kv (messageKey (ascii "r1") ⟨2020, 1, 2, 3, 4, 5, 6⟩, ascii "hi") =
      .ok (⟨2020, 1, 2, 3, 4, 5, 6⟩, ascii "hi") ∧
    (dtLt ⟨2020, 1, 2, 3, 4, 5, 6⟩ ⟨2020, 1, 2, 3, 4, 5, 7⟩ →
      bytesLt (messageKey (ascii "r1") ⟨2020, 1, 2, 3, 4, 5, 6⟩)
        (messageKey (ascii "r1") ⟨2020, 1, 2, 3, 4, 5, 7⟩) = true) :=
  C8_roundtrip_and_order (ascii "r1") ⟨2020, 1, 2, 3, 4, 5, 6⟩
    ⟨2020, 1, 2, 3, 4, 5, 7⟩ (ascii "hi") (by decide) (by decide) (by decide)
    (by decide)

/-- C9 counterexample: `Session::write` at an already-used timestamp
overwrites the existing Message Record (`tx.set` replaces the value), so
message records are not immutable under a write reusing a timestamp. -/
theorem C9_write_overwrites_same_timestamp :
    getS (Session.write [] (ascii "r1") ⟨2020, 1, 2, 3, 4, 5, 6⟩ (ascii "hi"))
      (messageKey (ascii "r1") ⟨2020, 1, 2, 3, 4, 5, 6⟩) = some (ascii "hi") ∧
    getS (Session.write
        (Session.write [] (ascii "r1") ⟨2020, 1, 2, 3, 4, 5, 6⟩ (ascii "hi"))
        (ascii "r1") ⟨2020, 1, 2, 3, 4, 5, 6⟩ (ascii "bye"))
      (messageKey (ascii "r1") ⟨2020, 1, 2, 3, 4, 5, 6⟩) = some (ascii "bye") := by
  decide

/-- C9 (amended): an existing Message Record is unchanged by `init_tx`
(which performs no write), by `leave_tx` (which clears only a presence
key), and by any `write` whose message key differs from the record's key;
only a write at the very same key (or Room Admin's clear) touches it. -/
theorem C9_immutable_except_same_key (s s2 s3 : Store)
    (room room2 u2 m2 v : Bytes) (t t2 : DT) (sess sess3 : SessionT)
    (hv : getS s (messageKey room t) = some v) :
    (init_tx s room2 u2 = .ok s2 → s2 = s) ∧
    (leave_tx s sess = .ok (s3, sess3) → getS s3 (messageKey room t) = some v) ∧
    (messageKey room2 t2 ≠ messageKey room t →
      getS (Session.write s room2 t2 m2) (messageKey room t) = some v) := by
  refine ⟨?_, ?_, ?_⟩
  · intro h
    rw [init_tx] at h
    cases hg : getSnap s (userKey room2 u2) initTxSnapshotFlag with
    | none =>
      rw [hg] at h
      exact (Except.ok.inj h).symm
    | some w =>
      rw [hg] at h
      exact absurd h (by simp)
  · intro h
    cases hid : sess.id with
    | none =>
      simp only [leave_tx, hid] at h
      have h1 : s = s3 := congrArg Prod.fst (Except.ok.inj h)
      rw [← h1]
      exact hv
    | some myid =>
      simp only [leave_tx, hid] at h
      cases hg : getSnap s (userKey sess.room sess.username) true with
      | none => simp [hg] at h
      | some dbid =>
        simp only [hg] at h
        by_cases heq : dbid = myid
        · rw [if_pos heq] at h
          have h1 : clearKey s (userKey sess.room sess.username) = s3 :=
            congrArg Prod.fst (Except.ok.inj h)
          rw [← h1, getS_clearKey, if_neg]
          · exact hv
          · exact fun hc => userKey_ne_messageKey _ _ _ _ hc.symm
        · rw [if_neg heq] at h
          exact absurd h (by simp)
  · intro hne
    rw [Session.write, getS_setS, if_neg, getS_setS, if_neg]
    · exact hv
    · exact fun hc => hne hc.symm
    · exact fun hc => recentKey_ne_messageKey _ _ _ hc.symm

/-- C9 witness: a record written at one timestamp survives `init_tx`,
`leave_tx` of a fresh session, and a `write` at a different timestamp. -/
theorem C9_immutable_except_same_key_witness :
    ((init_tx (Session.write [] (ascii "r1") ⟨2020, 1, 2, 3, 4, 5, 6⟩
          (ascii "hi")) (ascii "r1") (ascii "alice") =
        .ok (Session.write [] (ascii "r1") ⟨2020, 1, 2, 3, 4, 5, 6⟩
          (ascii "hi"))) →
      Session.write [] (ascii "r1") ⟨2020, 1, 2, 3, 4, 5, 6⟩ (ascii "hi") =
        Session.write [] (ascii "r1") ⟨2020, 1, 2, 3, 4, 5, 6⟩ (ascii "hi")) ∧
    ((leave_tx (Session.write [] (ascii "r1") ⟨2020, 1, 2, 3, 4, 5, 6⟩
          (ascii "hi")) ⟨ascii "r1", ascii "alice", none⟩ =
        .ok (Session.write [] (ascii "r1") ⟨2020, 1, 2, 3, 4, 5, 6⟩
          (ascii "hi"), ⟨ascii "r1", ascii "alice", none⟩)) →
      getS (Session.write [] (ascii "r1") ⟨2020, 1, 2, 3, 4, 5, 6⟩
          (ascii "hi"))
        (messageKey (ascii "r1") ⟨2020, 1, 2, 3, 4, 5, 6⟩) =
        some (ascii "hi")) ∧
    (messageKey (ascii "r1") ⟨2020, 1, 2, 3, 4, 5, 7⟩ ≠
        messageKey (ascii "r1") ⟨2020, 1, 2, 3, 4, 5, 6⟩ →
      getS (Session.write
          (Session.write [] (ascii "r1") ⟨2020, 1, 2, 3, 4, 5, 6⟩ (ascii "hi"))
          (ascii "r1") ⟨2020, 1, 2, 3, 4, 5, 7⟩ (ascii "bye"))
        (messageKey (ascii "r1") ⟨2020, 1, 2, 3, 4, 5, 6⟩) =
        some (ascii "hi")) :=
  C9_immutable_except_same_key
    (Session.write [] (ascii "r1") ⟨2020, 1, 2, 3, 4, 5, 6⟩ (ascii "hi"))
    (Session.write [] (ascii "r1") ⟨2020, 1, 2, 3, 4, 5, 6⟩ (ascii "hi"))
    (Session.write [] (ascii "r1") ⟨2020, 1, 2, 3, 4, 5, 6⟩ (ascii "hi"))
    (ascii "r1") (ascii "r1") (ascii "alice") (ascii "bye") (ascii "hi")
    ⟨2020, 1, 2, 3, 4, 5, 6⟩ ⟨2020, 1, 2, 3, 4, 5, 7⟩
    ⟨ascii "r1", ascii "alice", none⟩ ⟨ascii "r1", ascii "alice", none⟩
    (by decide)

/-- C6: over any store state whose in-range rows encode a message list `M`
(timestamps valid with four-digit years), `messagesOrWatch(after, limit)` in
one transaction returns the list of up to `limit` entries strictly after
`after` when that scan is non-empty, and otherwise returns the pending wait
of a watch armed on the Most-Recent-Message Marker against the very same
store state the empty scan observed. -/
theorem C6_page_or_marker_watch (s : Store) (room : Bytes)
    (M : List (DT × Bytes)) (last : Option DT) (limit : Option Nat)
    (hM : s.filter (fun kv => inMsgRange room kv.1) = M.map (encMsg room))
    (hV : ∀ tm ∈ M, ValidDT tm.1 ∧ tm.1.year ≤ 9999)
    (hlast : ∀ dt, last = some dt → ValidDT dt ∧ dt.year ≤ 9999) :
    messages_or_watch s room last limit =
      if (truncOpt limit (msgsAfter M last)).isEmpty
      then .ok (.watch (recentKey room))
      else .ok (.msgs (truncOpt limit (msgsAfter M last))) :=
  messages_or_watch_spec s room M last limit hM hV hlast

/-- C6 witness: a one-message room returns the page with limit 1. -/
theorem C6_page_or_marker_watch_witness :
    messages_or_watch
        [(messageKey (ascii "r1") ⟨2020, 1, 2, 3, 4, 5, 6⟩, ascii "a")]
        (ascii "r1") none (some 1) =
      if (truncOpt (some 1)
          (msgsAfter [(⟨2020, 1, 2, 3, 4, 5, 6⟩, ascii "a")] none)).isEmpty
      then .ok (.watch (recentKey (ascii "r1")))
      else .ok (.msgs (truncOpt (some 1)
        (msgsAfter [(⟨2020, 1, 2, 3, 4, 5, 6⟩, ascii "a")] none))) :=
  C6_page_or_marker_watch
    [(messageKey (ascii "r1") ⟨2020, 1, 2, 3, 4, 5, 6⟩, ascii "a")]
    (ascii "r1") [(⟨2020, 1, 2, 3, 4, 5, 6⟩, ascii "a")] none (some 1)
    (by decide) (by decide) (fun _ h => Option.noConfusion h)

/-- C7: with `N` messages of strictly increasing timestamps in the store
(valid, four-digit years), `MessageIterator.next` called repeatedly from
the start yields exactly those `N` (timestamp, text) pairs in ascending
order, and the `(N+1)`-th call suspends on a watch (blocks) instead of
returning. -/
theorem C7_iter_yields_all_then_blocks (s : Store) (room : Bytes)
    (M : List (DT × Bytes))
    (hM : s.filter (fun kv => inMsgRange room kv.1) = M.map (encMsg room))
    (hV : ∀ tm ∈ M, ValidDT tm.1 ∧ tm.1.year ≤ 9999)
    (hSort : List.Pairwise (fun a b => dtLt a.1 b.1) M) :
    ∃ stf, iterRun s room M.length (MessageIter.new none) = some (M, stf) ∧
      MessageIter.next s room stf = NextOutcome.blocked := by
  obtain ⟨stf, hrun, hwf, haf, hlvf⟩ := iterRun_inv s room M hM hV hSort
    M.length 0 (MessageIter.new none) (by omega)
    (by simp [MessageIter.new, msgsAfter])
    (fun _ h => Option.noConfusion h)
  refine ⟨stf, by simpa using hrun, ?_⟩
  have hmow := messages_or_watch_spec s room M stf.last (some 3) hM hV hlvf
  rw [haf] at hmow
  have hmow2 : messages_or_watch s room stf.last (some 3) =
      .ok (.watch (recentKey room)) := by
    rw [hmow]
    simp [truncOpt]
  simp [MessageIter.next, hwf, hmow2]

/-- C7 witness: four messages (crossing the page size of 3) are yielded in
order, then the iterator blocks. -/
theorem C7_iter_yields_all_then_blocks_witness :
    ∃ stf, iterRun
        [(messageKey (ascii "r1") ⟨2020, 1, 2, 3, 4, 5, 6⟩, ascii "a"),
         (messageKey (ascii "r1") ⟨2020, 1, 2, 3, 4, 5, 7⟩, ascii "b"),
         (messageKey (ascii "r1") ⟨2020, 1, 2, 3, 4, 6, 0⟩, ascii "c"),
         (messageKey (ascii "r1") ⟨2021, 1, 2, 3, 4, 5, 6⟩, ascii "d")]
        (ascii "r1")
        ([((⟨2020, 1, 2, 3, 4, 5, 6⟩ : DT), ascii "a"),
          (⟨2020, 1, 2, 3, 4, 5, 7⟩, ascii "b"),
          (⟨2020, 1, 2, 3, 4, 6, 0⟩, ascii "c"),
          (⟨2021, 1, 2, 3, 4, 5, 6⟩, ascii "d")] : List (DT × Bytes)).length
        (MessageIter.new none) =
      some ([((⟨2020, 1, 2, 3, 4, 5, 6⟩ : DT), ascii "a"),
        (⟨2020, 1, 2, 3, 4, 5, 7⟩, ascii "b"),
        (⟨2020, 1, 2, 3, 4, 6, 0⟩, ascii "c"),
        (⟨2021, 1, 2, 3, 4, 5, 6⟩, ascii "d")], stf) ∧
      MessageIter.next
        [(messageKey (ascii "r1") ⟨2020, 1, 2, 3, 4, 5, 6⟩, ascii "a"),
         (messageKey (ascii "r1") ⟨2020, 1, 2, 3, 4, 5, 7⟩, ascii "b"),
         (messageKey (ascii "r1") ⟨2020, 1, 2, 3, 4, 6, 0⟩, ascii "c"),
         (messageKey (ascii "r1") ⟨2021, 1, 2, 3, 4, 5, 6⟩, ascii "d")]
        (ascii "r1") stf = NextOutcome.blocked :=
  C7_iter_yields_all_then_blocks
    [(messageKey (ascii "r1") ⟨2020, 1, 2, 3, 4, 5, 6⟩, ascii "a"),
     (messageKey (ascii "r1") ⟨2020, 1, 2, 3, 4, 5, 7⟩, ascii "b"),
     (messageKey (ascii "r1") ⟨2020, 1, 2, 3, 4, 6, 0⟩, ascii "c"),
     (messageKey (ascii "r1") ⟨2021, 1, 2, 3, 4, 5, 6⟩, ascii "d")]
    (ascii "r1")
    [(⟨2020, 1, 2, 3, 4, 5, 6⟩, ascii "a"),
     (⟨2020, 1, 2, 3, 4, 5, 7⟩, ascii "b"),
     (⟨2020, 1, 2, 3, 4, 6, 0⟩, ascii "c"),
     (⟨2021, 1, 2, 3, 4, 5, 6⟩, ascii "d")]
    (by decide) (by decide) (by decide)

/-- C10: `messages_or_watch` never returns a successful empty page — the
list branch always has at least one entry — and consequently a
`MessageIter.next` call never reaches its two `expect` panics. -/
theorem C10_page_nonempty_no_panic :
    (∀ (s : Store) (room : Bytes) (last : Option DT) (limit : Option Nat)
        (l : List (DT × Bytes)),
      messages_or_watch s room last limit = .ok (.msgs l) → l ≠ []) ∧
    ∀ (s : Store) (room : Bytes) (st : MessageIter),
      MessageIter.next s room st ≠ .panicked :=
  ⟨mow_msgs_ne_nil, next_ne_panicked⟩

/-- C10 witness: the page returned over a one-message room is non-empty. -/
theorem C10_page_nonempty_no_panic_witness :
    ([((⟨2020, 1, 2, 3, 4, 5, 6⟩ : DT), ascii "a")] : List (DT × Bytes)) ≠ [] :=
  C10_page_nonempty_no_panic.1
    [(messageKey (ascii "r1") ⟨2020, 1, 2, 3, 4, 5, 6⟩, ascii "a")]
    (ascii "r1") none none [(⟨2020, 1, 2, 3, 4, 5, 6⟩, ascii "a")]
    rfl

end Fdbchat
